import Mathlib

/-!
Verification development for a small text-cleaning / document-adaptation
utility (`clean.py`, `adopter_example.py`).  Strings are modelled as
`List Char`; each Python function is translated into an executable Lean
definition, and the behavioural claims about the module are settled as
theorems about those definitions.
-/

/-! ## Character classes

`isPySpace` models the set of characters Python's `str.strip`, `str.split`
(no arguments) and the regex class `\s` treat as whitespace.
`isLineBreakChar` models the line boundaries recognised by
`str.splitlines` (the two-character boundary `"\r\n"` is handled inside
`splitlines` itself).  Decimal digits are modelled as the ASCII digits
`'0'`-`'9'` (`Char.isDigit`), the digit universe relevant to this module.
-/

def isPySpace (c : Char) : Bool :=
  c == ' ' || c == '\t' || c == '\n' || c == '\r' ||
  c == Char.ofNat 0x0b || c == Char.ofNat 0x0c ||
  (0x1c ≤ c.toNat && c.toNat ≤ 0x1f) ||
  c == Char.ofNat 0x85 || c == Char.ofNat 0xa0 ||
  c == Char.ofNat 0x1680 ||
  (0x2000 ≤ c.toNat && c.toNat ≤ 0x200a) ||
  c == Char.ofNat 0x2028 || c == Char.ofNat 0x2029 ||
  c == Char.ofNat 0x202f || c == Char.ofNat 0x205f || c == Char.ofNat 0x3000

def isLineBreakChar (c : Char) : Bool :=
  c == '\n' || c == '\r' ||
  c == Char.ofNat 0x0b || c == Char.ofNat 0x0c ||
  c == Char.ofNat 0x1c || c == Char.ofNat 0x1d || c == Char.ofNat 0x1e ||
  c == Char.ofNat 0x85 || c == Char.ofNat 0x2028 || c == Char.ofNat 0x2029

def isEqCh (c : Char) : Bool :=
  c == '='

/-! ## Python string primitives -/

/-- `str.splitlines`: accumulator holds the current line reversed.
A trailing line boundary does not produce a final empty line. -/
def splitlinesAux : List Char → List Char → List (List Char)
  | [], acc => if acc.isEmpty then [] else [acc.reverse]
  | '\r' :: '\n' :: rest, acc => acc.reverse :: splitlinesAux rest []
  | c :: rest, acc =>
      if isLineBreakChar c then acc.reverse :: splitlinesAux rest []
      else splitlinesAux rest (c :: acc)

def splitlines (cs : List Char) : List (List Char) :=
  splitlinesAux cs []

/-- `str.strip()`: remove leading and trailing whitespace. -/
def pyStrip (cs : List Char) : List Char :=
  ((cs.dropWhile isPySpace).reverse.dropWhile isPySpace).reverse

/-- `str.rstrip()`: remove trailing whitespace. -/
def pyRstrip (cs : List Char) : List Char :=
  (cs.reverse.dropWhile isPySpace).reverse

/-- `str.rstrip("\n")`: remove trailing newline characters. -/
def rstripNewlines (cs : List Char) : List Char :=
  (cs.reverse.dropWhile (fun c => c == '\n')).reverse

/-- `str.split()` (no arguments): split on runs of whitespace, dropping
empty tokens.  The accumulator holds the current token reversed. -/
def pySplitAux : List Char → List Char → List (List Char)
  | [], acc => if acc.isEmpty then [] else [acc.reverse]
  | c :: rest, acc =>
      if isPySpace c then
        (if acc.isEmpty then [] else [acc.reverse]) ++ pySplitAux rest []
      else pySplitAux rest (c :: acc)

def pySplit (cs : List Char) : List (List Char) :=
  pySplitAux cs []

/-- `len(s.split())`: the whitespace-delimited word count. -/
def count_words (cs : List Char) : Nat :=
  (pySplit cs).length

/-- `"\n".join(lines)`. -/
def joinNL : List (List Char) → List Char
  | [] => []
  | [l] => l
  | l :: ls => l ++ '\n' :: joinNL ls

/-- Split at every `'\n'` keeping empty pieces (inverse of `joinNL`). -/
def splitOnNL : List Char → List (List Char)
  | [] => [[]]
  | c :: rest =>
      if c == '\n' then [] :: splitOnNL rest
      else
        match splitOnNL rest with
        | [] => [[c]]
        | l :: ls => (c :: l) :: ls

/-- Index of the last occurrence of `c`, if any. -/
def lastIdxOf (c : Char) : List Char → Option Nat
  | [] => none
  | d :: rest =>
      match lastIdxOf c rest with
      | some t => some (t + 1)
      | none => if d == c then some 0 else none

/-! ## `clean.py`: `normalize_wikisection_headings`

The Python function applies `re.sub` with the multiline pattern
`^\s*={2,}([^=]+?)={2,}\s*$`, replacing each match by `group(1).strip()`.
Because `\s` and `[^=]` also match `'\n'`, a match may absorb line breaks.
Backtracking is deterministic for this pattern:

* `^` holds at the start of the text and right after each `'\n'`;
* the leading `\s*` must consume the whole whitespace run (stopping
  earlier leaves a whitespace character where `={2,}` needs `'='`);
* the opening `={2,}` must consume the whole `'='` run (stopping earlier
  leaves `'='` where `[^=]+?` needs a non-`'='`), and needs length >= 2;
* the lazy group `([^=]+?)` grows one character at a time over
  non-`'='` characters, so it is exactly the nonempty run up to the
  next `'='`;
* the closing `={2,}` must consume the whole `'='` run there (length >= 2);
* the trailing `\s*` then `$`: `$` holds at the end of the text or just
  before a `'\n'`; greediness picks the end of the whitespace run if it is
  the end of the text, otherwise the last `'\n'` inside that run.

`headingMatch s` returns `some (len, group)` when the pattern matches a
prefix-anchored attempt at the start of `s` (`len` = matched length). -/

def headingMatch (s : List Char) : Option (Nat × List Char) :=
  let lead := s.takeWhile isPySpace
  let s1 := s.dropWhile isPySpace
  let open1 := s1.takeWhile isEqCh
  let s2 := s1.dropWhile isEqCh
  if open1.length < 2 then none else
  let g := s2.takeWhile (fun c => ! isEqCh c)
  let s3 := s2.dropWhile (fun c => ! isEqCh c)
  if g.length = 0 then none else
  let close1 := s3.takeWhile isEqCh
  let s4 := s3.dropWhile isEqCh
  if close1.length < 2 then none else
  let trailWs := s4.takeWhile isPySpace
  let base := lead.length + open1.length + g.length + close1.length
  if trailWs.length = s4.length then some (base + trailWs.length, g)
  else
    match lastIdxOf '\n' trailWs with
    | some t => some (base + t, g)
    | none => none

/-- The `re.sub` scan: `anchor` records whether the current position is a
`^` position (start of text or just after `'\n'`).  On a match the
replacement `group.strip()` is emitted and scanning resumes right after
the match; otherwise one character is emitted.  `fuel` is an upper bound
on the number of steps; every step consumes at least one character, so
`fuel = length of the text` suffices (structural recursion device only). -/
def subScanF : Nat → List Char → Bool → List Char
  | 0, s, _ => s
  | _ + 1, [], _ => []
  | fuel + 1, c :: rest, anchor =>
      match (if anchor then headingMatch (c :: rest) else none) with
      | some (len, g) =>
          pyStrip g ++
            subScanF fuel (rest.drop (len - 1))
              (((c :: rest).take len).getLast? == some '\n')
      | none => c :: subScanF fuel rest (c == '\n')

def normalize_wikisection_headings (cs : List Char) : List Char :=
  subScanF cs.length cs true

/-! ## `clean.py`: `extract_until_two_non_period_lines` -/

structure ExtractState where
  result : List Char
  buffer : List Char
  streak : Nat
  broke : Bool
deriving DecidableEq

/-- One iteration of the Python loop.  `broke` models `break`: once set,
remaining lines are ignored. -/
def extractStep (st : ExtractState) (line : List Char) : ExtractState :=
  if st.broke then st
  else
    let stripped := pyStrip line
    if stripped.getLast? == some '.' then
      ⟨st.result ++ st.buffer ++ line ++ ['\n'], [], 0, false⟩
    else
      let buf := st.buffer ++ line ++ ['\n']
      if stripped.isEmpty then ⟨st.result, buf, st.streak, false⟩
      else if st.streak + 1 ≥ 2 then ⟨st.result, buf, st.streak + 1, true⟩
      else ⟨st.result, buf, st.streak + 1, false⟩

def extract_until_two_non_period_lines (cs : List Char) : List Char :=
  rstripNewlines (((splitlines cs).foldl extractStep ⟨[], [], 0, false⟩).result)

/-! ## `clean.py`: `remove_after_references`

The pattern `References|External links|See also|Category:|Notes` is a
plain alternation of literals.  No occurrence of one keyword can overlap
another (each keyword starts with an uppercase letter and contains no
uppercase letter after its first character), so `re.finditer` yields
every occurrence; the Python loop keeps the earliest occurrence whose
start position is strictly greater than the index of the first `'\n'`
(`len(text)` when there is none). -/

def keywords : List (List Char) :=
  ["References".data, "External links".data, "See also".data,
   "Category:".data, "Notes".data]

/-- Does some keyword occur at position `p`? -/
def kwMatchAt (cs : List Char) (p : Nat) : Bool :=
  keywords.any (fun k => (cs.drop p).take k.length == k)

/-- `text.find('\n')`, with the Python fallback `-1 -> len(text)` folded
in: index of the first `'\n'`, or the length when there is none. -/
def firstLineEnd : List Char → Nat
  | [] => 0
  | c :: rest => if c == '\n' then 0 else firstLineEnd rest + 1

/-- Start positions of keyword occurrences strictly after the first line
break, in increasing order. -/
def validPositions (cs : List Char) : List Nat :=
  (List.range cs.length).filter (fun p => decide (firstLineEnd cs < p) && kwMatchAt cs p)

def remove_after_references (cs : List Char) : List Char :=
  match (validPositions cs).head? with
  | some q => pyRstrip (cs.take q)
  | none => cs

/-! ## `clean.py`: `contains_western_year`

`re.search(r'(?<!\d)\d{3,4}(?!\d)', text)`: a match at position `i`
requires no digit just before `i`, then (greedily) four digits with no
digit after, or else three digits with no digit after. -/

def optDigit : Option Char → Bool
  | none => false
  | some c => c.isDigit

def yearMatchAt (cs : List Char) (i : Nat) : Bool :=
  (i == 0 || ! optDigit cs[i - 1]?) &&
  ((decide (((cs.drop i).take 4).length = 4) && ((cs.drop i).take 4).all Char.isDigit &&
      ! optDigit cs[i + 4]?) ||
   (decide (((cs.drop i).take 3).length = 3) && ((cs.drop i).take 3).all Char.isDigit &&
      ! optDigit cs[i + 3]?))

def contains_western_year (cs : List Char) : Bool :=
  (List.range cs.length).any (fun i => yearMatchAt cs i)

/-! ## `adopter_example.py`: `custom_adapter` -/

structure OutputRecord where
  title : List Char
  text : List Char
  text_word_count : Nat
  extracted_text_length : Nat
  extracted_text_word_count : Nat
  contains_western_year : Bool
  extracted_contains_western_year : Bool
deriving DecidableEq

/-- `custom_adapter(self, document)`: `none` models the `ValueError`
raised (and propagated to the caller) when the normalized text splits
into zero lines. -/
def custom_adapter (docText : List Char) : Option OutputRecord :=
  let full_text := remove_after_references (normalize_wikisection_headings docText)
  match splitlines full_text with
  | [] => none
  | l0 :: rest =>
      let title := pyStrip l0
      let body_text := pyStrip (joinNL (rest.dropWhile (fun l => (pyStrip l).isEmpty)))
      let extracted_text := extract_until_two_non_period_lines body_text
      some ⟨title, body_text, count_words body_text, extracted_text.length,
            count_words extracted_text, contains_western_year body_text,
            contains_western_year extracted_text⟩

/-! ## `clean.py`: `LenientJsonlReader.read_file`

`json.loads` and `self.get_document_from_dict` are external
collaborators; the per-line control flow is modelled parametrically in a
step function.  `LineParse.fail` models an exception raised by either
call (caught, warned about, and skipped), `LineParse.noDoc` a falsy
document (skipped silently), `LineParse.doc d` a yielded document.
A warning is modelled as the pair (file path, line index). -/

inductive LineParse (α : Type) where
  | fail : LineParse α
  | noDoc : LineParse α
  | doc : α → LineParse α

def read_file_loop {α : Type} (parse : List Char → LineParse α) (filepath : List Char) :
    List (List Char) → Nat → List α × List (List Char × Nat)
  | [], _ => ([], [])
  | line :: rest, li =>
      let res := read_file_loop parse filepath rest (li + 1)
      match parse line with
      | .fail => (res.1, (filepath, li) :: res.2)
      | .noDoc => res
      | .doc d => (d :: res.1, res.2)

def read_file {α : Type} (parse : List Char → LineParse α) (filepath : List Char)
    (lines : List (List Char)) : List α × List (List Char × Nat) :=
  read_file_loop parse filepath lines 0

/-! ## Spec-side definitions

These follow the wording of the behavioural claims (not the source) and
are compared against the source translations above. -/

/-- The lead-paragraph extraction as the specification words it: process
lines in order with a pending `buffer` and a `count` of consecutive
substantive non-period lines; a period line flushes the buffer and is
emitted; a blank line is buffered without counting; a second consecutive
substantive non-period line stops processing and discards the buffer. -/
def leadParagraphSpec : List (List Char) → List Char → Nat → List Char
  | [], _, _ => []
  | line :: rest, buffer, count =>
      if (pyStrip line).getLast? == some '.' then
        buffer ++ line ++ ['\n'] ++ leadParagraphSpec rest [] 0
      else if (pyStrip line).isEmpty then
        leadParagraphSpec rest (buffer ++ line ++ ['\n']) count
      else if count + 1 ≥ 2 then []
      else leadParagraphSpec rest (buffer ++ line ++ ['\n']) (count + 1)

def leadParagraphExtract (cs : List Char) : List Char :=
  rstripNewlines (leadParagraphSpec (splitlines cs) [] 0)

/-- Whole-line heading form as the claim words it: optional leading
whitespace, two or more `'='`, heading text containing no `'='`, two or
more `'='`, optional trailing whitespace.  Returns the heading text. -/
def lineHeadingInner (l : List Char) : Option (List Char) :=
  let l1 := l.dropWhile isPySpace
  let open1 := l1.takeWhile isEqCh
  let l2 := l1.dropWhile isEqCh
  if open1.length < 2 then none else
  let g := l2.takeWhile (fun c => ! isEqCh c)
  let l3 := l2.dropWhile (fun c => ! isEqCh c)
  if g.length = 0 then none else
  let close1 := l3.takeWhile isEqCh
  let l4 := l3.dropWhile isEqCh
  if close1.length < 2 then none else
  if l4.all isPySpace then some g else none

/-- Heading normalization as the claim words it: line-based, each
matching line replaced by the trimmed heading text, other lines kept. -/
def normalize_headings_linewise (cs : List Char) : List Char :=
  joinNL ((splitOnNL cs).map (fun l =>
    match lineHeadingInner l with
    | some g => pyStrip g
    | none => l))

/-- A run of exactly 3 or 4 decimal digits with no digit immediately
before or after it (the claim's description of the year detector). -/
def hasYear (cs : List Char) : Prop :=
  ∃ a d b, cs = a ++ d ++ b ∧ d.all Char.isDigit = true ∧
    (d.length = 3 ∨ d.length = 4) ∧
    (a = [] ∨ ∃ a' c, a = a' ++ [c] ∧ c.isDigit = false) ∧
    (b = [] ∨ ∃ c b', b = c :: b' ∧ c.isDigit = false)

/-! ## Refinement: the extraction loop versus its description -/

theorem extractStep_broke (st : ExtractState) (l : List Char) (h : st.broke = true) :
    extractStep st l = st := by
  simp [extractStep, h]

theorem foldl_extractStep_broke (lines : List (List Char)) (st : ExtractState)
    (h : st.broke = true) : lines.foldl extractStep st = st := by
  induction lines with
  | nil => rfl
  | cons l ls ih => rw [List.foldl_cons, extractStep_broke st l h, ih]

theorem foldl_extractStep_eq_spec (lines : List (List Char)) :
    ∀ res buf k, k ≤ 1 →
      (lines.foldl extractStep ⟨res, buf, k, false⟩).result
        = res ++ leadParagraphSpec lines buf k := by
  induction lines with
  | nil => intro res buf k _; simp [leadParagraphSpec]
  | cons line rest ih =>
      intro res buf k hk
      rw [List.foldl_cons]
      by_cases hp : (pyStrip line).getLast? == some '.'
      · have hstep : extractStep ⟨res, buf, k, false⟩ line
            = ⟨res ++ buf ++ line ++ ['\n'], [], 0, false⟩ := by
          simp [extractStep, hp]
        rw [hstep, ih _ _ 0 (by omega)]
        simp [leadParagraphSpec, hp, List.append_assoc]
      · by_cases hb : (pyStrip line).isEmpty
        · have hstep : extractStep ⟨res, buf, k, false⟩ line
              = ⟨res, buf ++ line ++ ['\n'], k, false⟩ := by
            simp [extractStep, hp, hb]
          rw [hstep, ih _ _ k hk]
          simp [leadParagraphSpec, hp, hb]
        · by_cases hs : k + 1 ≥ 2
          · have hstep : extractStep ⟨res, buf, k, false⟩ line
                = ⟨res, buf ++ line ++ ['\n'], k + 1, true⟩ := by
              simp [extractStep, hp, hb, hs]
            rw [hstep, foldl_extractStep_broke rest _ rfl]
            simp [leadParagraphSpec, hp, hb, hs]
          · have hstep : extractStep ⟨res, buf, k, false⟩ line
                = ⟨res, buf ++ line ++ ['\n'], k + 1, false⟩ := by
              simp [extractStep, hp, hb, hs]
            rw [hstep, ih _ _ (k + 1) (by omega)]
            simp [leadParagraphSpec, hp, hb, hs]

theorem extract_eq_leadParagraphExtract (cs : List Char) :
    extract_until_two_non_period_lines cs = leadParagraphExtract cs := by
  unfold extract_until_two_non_period_lines leadParagraphExtract
  rw [foldl_extractStep_eq_spec (splitlines cs) [] [] 0 (by omega)]
  rfl

/-- C1: `extract_until_two_non_period_lines` processes the lines in
original order with a pending buffer and a counter of consecutive
substantive non-period lines; a line whose stripped form ends with a
period flushes the buffer, appends the original line plus a line break,
and resets the counter; other lines are buffered, substantive ones
incrementing the counter; at counter 2 processing stops and the buffer
is discarded; the result is returned with trailing line breaks stripped.
Stated as equality with `leadParagraphExtract`, the direct recursive
rendering of that description, plus the specification's example. -/
theorem claim1_lead_paragraph_extraction :
    (∀ cs, extract_until_two_non_period_lines cs = leadParagraphExtract cs) ∧
    extract_until_two_non_period_lines ("Sentence one.\nfoo\nbar\nSentence two.".data)
      = "Sentence one.".data :=
  ⟨extract_eq_leadParagraphExtract, by decide⟩

/-! ## The lenient reader -/

theorem read_file_loop_spec {α : Type} (parse : List Char → LineParse α) (fp : List Char)
    (lines : List (List Char)) :
    ∀ li, read_file_loop parse fp lines li
      = (lines.filterMap (fun l => match parse l with | .doc d => some d | _ => none),
         (List.enumFrom li lines).filterMap
           (fun p => match parse p.2 with | .fail => some (fp, p.1) | _ => none)) := by
  induction lines with
  | nil => intro li; rfl
  | cons l rest ih =>
      intro li
      rw [read_file_loop, ih (li + 1)]
      cases hp : parse l <;>
        simp [List.enumFrom_cons, List.filterMap_cons, hp]

/-- C7: in `LenientJsonlReader.read_file`, a line whose JSON parse or
document construction fails produces a warning naming the file and the
line index and is skipped, processing continuing with the next line:
the documents are exactly the successfully parsed lines in file order
and the warnings are exactly the failing line indices; in particular a
malformed line followed by one valid line yields exactly one document. -/
theorem claim7_lenient_reader :
    (∀ (α : Type) (parse : List Char → LineParse α) (fp : List Char)
        (lines : List (List Char)),
        read_file parse fp lines
          = (lines.filterMap (fun l => match parse l with | .doc d => some d | _ => none),
             lines.enum.filterMap
               (fun p => match parse p.2 with | .fail => some (fp, p.1) | _ => none))) ∧
    read_file (fun l => if l = "notjson".data then .fail else .doc l) ("data.jsonl".data)
        ["notjson".data, "Good line.".data]
      = (["Good line.".data], [("data.jsonl".data, 0)]) := by
  constructor
  · intro α parse fp lines
    rw [read_file, read_file_loop_spec parse fp lines 0, List.enum_eq_enumFrom]
  · decide

/-! ## The document adapter -/

/-- C6: `custom_adapter` fails (raising the validation error modelled by
`none`, surfaced to the caller) exactly when splitting the normalized
text into lines yields zero lines; otherwise it returns a record. -/
theorem claim6_adapter_error_iff_no_lines (t : List Char) :
    custom_adapter t = none ↔
      splitlines (remove_after_references (normalize_wikisection_headings t)) = [] := by
  unfold custom_adapter
  cases h : splitlines (remove_after_references (normalize_wikisection_headings t)) <;>
    simp [h]

theorem claim6_witness : custom_adapter ("".data) = none :=
  (claim6_adapter_error_iff_no_lines ("".data)).mpr (by decide)

/-- The body text the adapter derives from the lines after the title:
skip the blank lines immediately following the first line, join the
remainder with line breaks, and trim. -/
def adapterBody (rest : List (List Char)) : List Char :=
  pyStrip (joinNL (rest.dropWhile (fun l => (pyStrip l).isEmpty)))

/-- C5: when the normalized text splits into at least one line, the
record returned by `custom_adapter` has the trimmed first line as title,
the remaining lines after the blank run joined and trimmed as text, and
the whitespace-delimited token counts of that body text and of the
extracted text as the two word-count fields (together with the derived
length and year-detection fields). -/
theorem claim5_adapter_record (t l0 : List Char) (rest : List (List Char))
    (h : splitlines (remove_after_references (normalize_wikisection_headings t))
          = l0 :: rest) :
    custom_adapter t = some
      ⟨pyStrip l0,
       adapterBody rest,
       count_words (adapterBody rest),
       (extract_until_two_non_period_lines (adapterBody rest)).length,
       count_words (extract_until_two_non_period_lines (adapterBody rest)),
       contains_western_year (adapterBody rest),
       contains_western_year (extract_until_two_non_period_lines (adapterBody rest))⟩ := by
  simp only [custom_adapter, adapterBody, h]

theorem claim5_witness :
    custom_adapter ("Title\n\nBody ends here.".data)
      = some ⟨"Title".data, "Body ends here.".data, 3, 15, 3, false, false⟩ := by
  rw [claim5_adapter_record ("Title\n\nBody ends here.".data) ("Title".data)
        ["".data, "Body ends here.".data] (by decide)]
  decide

/-! ## The year detector: regex search versus the digit-run description -/
theorem hasYear_of_branch (cs : List Char) (i L : Nat) (hL : L = 3 ∨ L = 4)
    (hleft : (i == 0 || ! optDigit cs[i - 1]?) = true)
    (hlen : ((cs.drop i).take L).length = L)
    (hdig : ((cs.drop i).take L).all Char.isDigit = true)
    (hright : optDigit cs[i + L]? = false) :
    hasYear cs := by
  have hiL : i + L ≤ cs.length := by
    have h1 := List.length_take L (cs.drop i)
    have h2 := List.length_drop i cs
    rw [hlen] at h1
    omega
  have hcons : (cs.drop i).take L ++ cs.drop (i + L) = cs.drop i := by
    rw [← List.drop_drop]
    exact List.take_append_drop L (cs.drop i)
  refine ⟨cs.take i, (cs.drop i).take L, cs.drop (i + L), ?_, hdig, ?_, ?_, ?_⟩
  · rw [List.append_assoc, hcons, List.take_append_drop]
  · omega
  · by_cases hi : i = 0
    · left
      simp [hi]
    · right
      have hnd : optDigit cs[i - 1]? = false := by
        rcases Bool.or_eq_true_iff.mp hleft with h0 | hnd
        · exact absurd (by simpa using h0) hi
        · simpa using hnd
      have hi1lt : i - 1 < cs.length := by omega
      have hsome : cs[i - 1]? = some cs[i - 1] := List.getElem?_eq_getElem hi1lt
      refine ⟨cs.take (i - 1), cs[i - 1], ?_, ?_⟩
      · have h2 : i = (i - 1) + 1 := by omega
        conv_lhs => rw [h2, List.take_succ]
        rw [hsome]
        rfl
      · rw [hsome] at hnd
        simpa [optDigit] using hnd
  · cases hb : cs[i + L]? with
    | none =>
        left
        exact List.drop_eq_nil_iff.mpr (List.getElem?_eq_none_iff.mp hb)
    | some c =>
        right
        rw [hb] at hright
        have hlt : i + L < cs.length := by
          rcases List.getElem?_eq_some_iff.mp hb with ⟨h, _⟩
          exact h
        refine ⟨c, cs.drop (i + L + 1), ?_, ?_⟩
        · rw [List.drop_eq_getElem_cons hlt]
          rcases List.getElem?_eq_some_iff.mp hb with ⟨h, hc⟩
          rw [hc]
        · simpa [optDigit] using hright


theorem contains_of_hasYear (cs : List Char) (h : hasYear cs) :
    contains_western_year cs = true := by
  obtain ⟨a, d, b, hcs, hdig, hL, hA, hB⟩ := h
  have hdrop : cs.drop a.length = d ++ b := by
    rw [hcs, List.append_assoc, List.drop_left]
  have htake : (cs.drop a.length).take d.length = d := by
    rw [hdrop, List.take_left]
  have hlen : cs.length = a.length + d.length + b.length := by
    rw [hcs]
    simp [List.length_append]
    omega
  have hguard : (a.length == 0 || ! optDigit cs[a.length - 1]?) = true := by
    rcases hA with hA0 | ⟨a', c, ha, hc⟩
    · subst hA0
      rfl
    · apply Bool.or_eq_true_iff.mpr
      right
      have hidx : a.length - 1 = a'.length := by
        rw [ha, List.length_append]
        simp
      have hce : cs[a.length - 1]? = some c := by
        rw [hidx, hcs, ha]
        simp only [List.append_assoc]
        rw [List.getElem?_append_right (le_refl a'.length)]
        simp
      rw [hce]
      simp [optDigit, hc]
  have hafter : optDigit cs[a.length + d.length]? = false := by
    rcases hB with hB0 | ⟨c, b', hb, hc⟩
    · have hle : cs.length ≤ a.length + d.length := by
        rw [hcs, hB0]
        simp [List.length_append]
      rw [List.getElem?_eq_none hle]
      rfl
    · have hce : cs[a.length + d.length]? = some c := by
        rw [hcs, hb]
        have h1 : (a ++ d).length ≤ a.length + d.length := by
          rw [List.length_append]
        rw [List.getElem?_append_right h1]
        simp [List.length_append]
      rw [hce]
      simp [optDigit, hc]
  apply List.any_eq_true.mpr
  refine ⟨a.length, List.mem_range.mpr (by omega), ?_⟩
  unfold yearMatchAt
  apply Bool.and_eq_true_iff.mpr
  refine ⟨hguard, ?_⟩
  apply Bool.or_eq_true_iff.mpr
  rcases hL with h3 | h4
  · right
    rw [← h3, htake]
    simp [hdig, hafter]
  · left
    rw [← h4, htake]
    simp [hdig, hafter]

theorem contains_western_year_iff (cs : List Char) :
    contains_western_year cs = true ↔ hasYear cs := by
  constructor
  · intro h
    obtain ⟨i, _, hy⟩ := List.any_eq_true.mp h
    unfold yearMatchAt at hy
    obtain ⟨hguard, hor⟩ := Bool.and_eq_true_iff.mp hy
    rcases Bool.or_eq_true_iff.mp hor with h4 | h3
    · obtain ⟨h41, h43⟩ := Bool.and_eq_true_iff.mp h4
      obtain ⟨h41a, h42⟩ := Bool.and_eq_true_iff.mp h41
      exact hasYear_of_branch cs i 4 (Or.inr rfl) hguard
        (of_decide_eq_true h41a) h42 (by simpa using h43)
    · obtain ⟨h31, h33⟩ := Bool.and_eq_true_iff.mp h3
      obtain ⟨h31a, h32⟩ := Bool.and_eq_true_iff.mp h31
      exact hasYear_of_branch cs i 3 (Or.inl rfl) hguard
        (of_decide_eq_true h31a) h32 (by simpa using h33)
  · exact contains_of_hasYear cs

/-- C4: `contains_western_year` returns true exactly when the text
contains a run of exactly 3 or 4 decimal digits with no digit
immediately before or after it; in particular runs of 5 or more digits
never trigger a match, as in the specification's examples. -/
theorem claim4_year_detector :
    (∀ cs, contains_western_year cs = true ↔ hasYear cs) ∧
    contains_western_year ("in 1990s".data) = true ∧
    contains_western_year ("id 12345".data) = false ∧
    contains_western_year ("year 999".data) = true ∧
    contains_western_year ("55".data) = false :=
  ⟨contains_western_year_iff, by decide, by decide, by decide, by decide⟩

theorem claim4_witness : hasYear ("year 999".data) :=
  (claim4_year_detector.1 ("year 999".data)).mp (by decide)

/-! ## The reference truncator -/

theorem keyword_length_pos (k : List Char) (hk : k ∈ keywords) : 1 ≤ k.length := by
  simp only [keywords, List.mem_cons, List.not_mem_nil, or_false] at hk
  rcases hk with rfl | rfl | rfl | rfl | rfl <;> decide

theorem kwMatchAt_take_eq (cs : List Char) (p : Nat) (h : kwMatchAt cs p = true) :
    ∃ k ∈ keywords, (cs.drop p).take k.length = k := by
  obtain ⟨k, hk, he⟩ := List.any_eq_true.mp h
  exact ⟨k, hk, by simpa using he⟩

theorem kwMatchAt_lt_length (cs : List Char) (p : Nat) (h : kwMatchAt cs p = true) :
    p < cs.length := by
  obtain ⟨k, hk, he⟩ := kwMatchAt_take_eq cs p h
  have h1 : ((cs.drop p).take k.length).length = k.length := by rw [he]
  rw [List.length_take, List.length_drop] at h1
  have h2 := keyword_length_pos k hk
  omega

theorem kwMatchAt_bound (cs : List Char) (p : Nat) (h : kwMatchAt cs p = true) :
    ∃ k ∈ keywords, (cs.drop p).take k.length = k ∧ p + k.length ≤ cs.length := by
  obtain ⟨k, hk, he⟩ := kwMatchAt_take_eq cs p h
  have h1 : ((cs.drop p).take k.length).length = k.length := by rw [he]
  rw [List.length_take, List.length_drop] at h1
  have h2 := keyword_length_pos k hk
  exact ⟨k, hk, he, by omega⟩

/-- A keyword occurrence inside a prefix is an occurrence in the whole. -/
theorem kwMatchAt_append (cs ext : List Char) (p : Nat) (h : kwMatchAt cs p = true) :
    kwMatchAt (cs ++ ext) p = true := by
  obtain ⟨k, hk, he, hb⟩ := kwMatchAt_bound cs p h
  apply List.any_eq_true.mpr
  refine ⟨k, hk, ?_⟩
  have hp : p ≤ cs.length := by
    have := keyword_length_pos k hk
    omega
  rw [List.drop_append_of_le_length hp]
  have hkl : k.length ≤ (cs.drop p).length := by
    rw [List.length_drop]
    omega
  rw [List.take_append_of_le_length hkl, he]
  exact beq_self_eq_true k

theorem firstLineEnd_of_no_newline (cs : List Char) (h : '\n' ∉ cs) :
    firstLineEnd cs = cs.length := by
  induction cs with
  | nil => rfl
  | cons c rest ih =>
      rw [List.mem_cons, not_or] at h
      obtain ⟨h1, h2⟩ := h
      have hc : (c == '\n') = false := by
        apply beq_eq_false_iff_ne.mpr
        exact fun he => h1 he.symm
      simp [firstLineEnd, hc, ih h2]

theorem head?_filter_range_mem {p : Nat → Bool} {n q : Nat}
    (h : ((List.range n).filter p).head? = some q) : q < n ∧ p q = true := by
  have hq : q ∈ (List.range n).filter p := by
    obtain ⟨ys, hys⟩ := List.head?_eq_some_iff.mp h
    rw [hys]
    exact List.mem_cons_self _ _
  obtain ⟨h1, h2⟩ := List.mem_filter.mp hq
  exact ⟨List.mem_range.mp h1, h2⟩

theorem head?_filter_range_min {p : Nat → Bool} {n q : Nat}
    (h : ((List.range n).filter p).head? = some q) :
    ∀ r, r < n → p r = true → q ≤ r := by
  intro r hr hpr
  have hpw : List.Pairwise (· < ·) ((List.range n).filter p) :=
    List.Pairwise.sublist (List.filter_sublist _) (List.pairwise_lt_range n)
  obtain ⟨ys, hys⟩ := List.head?_eq_some_iff.mp h
  have hrmem : r ∈ (List.range n).filter p :=
    List.mem_filter.mpr ⟨List.mem_range.mpr hr, hpr⟩
  rw [hys] at hrmem hpw
  rcases List.mem_cons.mp hrmem with h1 | h1
  · omega
  · have := (List.pairwise_cons.mp hpw).1 r h1
    omega

/-- C2: `remove_after_references` finds the earliest occurrence, strictly
after the first line break, of one of the five literal keywords; if one
exists the text is cut just before it and trailing whitespace trimmed;
with no line break in the input nothing is cut; with no keyword after
the first line the input is returned unchanged. -/
theorem claim2_reference_truncation (cs : List Char) :
    ('\n' ∉ cs → remove_after_references cs = cs) ∧
    (∀ p, firstLineEnd cs < p → kwMatchAt cs p = true →
       ∃ q, firstLineEnd cs < q ∧ kwMatchAt cs q = true ∧
         (∀ r, firstLineEnd cs < r → kwMatchAt cs r = true → q ≤ r) ∧
         remove_after_references cs = pyRstrip (cs.take q)) ∧
    ((∀ p, firstLineEnd cs < p → kwMatchAt cs p = false) →
       remove_after_references cs = cs) := by
  refine ⟨?_, ?_, ?_⟩
  · intro h
    have hfle : firstLineEnd cs = cs.length := firstLineEnd_of_no_newline cs h
    have hnil : validPositions cs = [] := by
      apply List.filter_eq_nil_iff.mpr
      intro p hp hcontra
      obtain ⟨h1, _⟩ := Bool.and_eq_true_iff.mp hcontra
      have h3 := of_decide_eq_true h1
      have h4 := List.mem_range.mp hp
      omega
    simp [remove_after_references, hnil]
  · intro p hplt hpkw
    have hplen : p < cs.length := kwMatchAt_lt_length cs p hpkw
    have hpmem : p ∈ validPositions cs := by
      apply List.mem_filter.mpr
      refine ⟨List.mem_range.mpr hplen, ?_⟩
      simp [hpkw, hplt]
    obtain ⟨q, hq⟩ : ∃ q, (validPositions cs).head? = some q := by
      cases hh : (validPositions cs).head? with
      | none =>
          rw [List.head?_eq_none_iff.mp hh] at hpmem
          exact absurd hpmem (List.not_mem_nil p)
      | some q => exact ⟨q, rfl⟩
    have hmem := head?_filter_range_mem hq
    obtain ⟨hqlen, hqp⟩ := hmem
    obtain ⟨hq1, hq2⟩ := Bool.and_eq_true_iff.mp hqp
    refine ⟨q, of_decide_eq_true hq1, hq2, ?_, ?_⟩
    · intro r hrlt hrkw
      exact head?_filter_range_min hq r (kwMatchAt_lt_length cs r hrkw)
        (by simp [hrlt, hrkw])
    · simp [remove_after_references, hq]
  · intro hall
    have hnil : validPositions cs = [] := by
      apply List.filter_eq_nil_iff.mpr
      intro p hp hcontra
      obtain ⟨h1, h2⟩ := Bool.and_eq_true_iff.mp hcontra
      have h3 := of_decide_eq_true h1
      rw [hall p h3] at h2
      exact Bool.false_ne_true h2
    simp [remove_after_references, hnil]

theorem claim2_witness :
    remove_after_references ("References only line".data) = "References only line".data :=
  (claim2_reference_truncation ("References only line".data)).1 (by decide)

/-! ## Right-strip decompositions and idempotence of the truncator -/

theorem reverse_dropWhile_decomp (p : Char → Bool) (l : List Char) :
    ∃ t, l = (l.reverse.dropWhile p).reverse ++ t ∧ ∀ a ∈ t, p a = true := by
  refine ⟨(l.reverse.takeWhile p).reverse, ?_, ?_⟩
  · conv_lhs => rw [← List.reverse_reverse l,
      ← List.takeWhile_append_dropWhile p l.reverse]
    rw [List.reverse_append]
  · intro a ha
    rw [List.mem_reverse] at ha
    exact List.mem_takeWhile_imp ha

theorem firstLineEnd_append (x z : List Char) :
    firstLineEnd (x ++ z)
      = if firstLineEnd x < x.length then firstLineEnd x
        else x.length + firstLineEnd z := by
  induction x with
  | nil => simp [firstLineEnd]
  | cons c rest ih =>
      rw [List.cons_append]
      by_cases hc : (c == '\n') = true
      · simp [firstLineEnd, hc]
      · have hc' : ¬ ((c == '\n') = true) := by simp [hc]
        simp only [firstLineEnd, if_neg hc', List.length_cons]
        rw [ih]
        by_cases h2 : firstLineEnd rest < rest.length
        · rw [if_pos h2, if_pos (by omega)]
        · rw [if_neg h2, if_neg (by omega)]
          omega

/-- C8 (amended): `remove_after_references` is idempotent (the heading
normalizer, by contrast, is not: see the counterexample). -/
theorem claim8_truncator_idempotent (cs : List Char) :
    remove_after_references (remove_after_references cs) = remove_after_references cs := by
  cases hq : (validPositions cs).head? with
  | none =>
      simp [remove_after_references, hq]
  | some q =>
      have hres : remove_after_references cs = pyRstrip (cs.take q) := by
        simp [remove_after_references, hq]
      rw [validPositions] at hq
      obtain ⟨hqlen, hqpred⟩ := head?_filter_range_mem hq
      obtain ⟨hq1, hq2⟩ := Bool.and_eq_true_iff.mp hqpred
      have hqfle : firstLineEnd cs < q := of_decide_eq_true hq1
      have hmin := head?_filter_range_min hq
      obtain ⟨t, ht, _⟩ := reverse_dropWhile_decomp isPySpace (cs.take q)
      have ht' : cs.take q = pyRstrip (cs.take q) ++ t := ht
      have hylen : (pyRstrip (cs.take q)).length ≤ q := by
        have h1 : (cs.take q).length = (pyRstrip (cs.take q)).length + t.length := by
          conv_lhs => rw [ht']
          rw [List.length_append]
        have h2 : (cs.take q).length ≤ q := by
          rw [List.length_take]
          omega
        omega
      obtain ⟨w, hw⟩ : ∃ w, cs = pyRstrip (cs.take q) ++ w := by
        refine ⟨t ++ cs.drop q, ?_⟩
        rw [← List.append_assoc, ← ht', List.take_append_drop]
      have hnil : validPositions (pyRstrip (cs.take q)) = [] := by
        apply List.filter_eq_nil_iff.mpr
        intro p hp hcontra
        obtain ⟨h1, h2⟩ := Bool.and_eq_true_iff.mp hcontra
        have hflt : firstLineEnd (pyRstrip (cs.take q)) < p := of_decide_eq_true h1
        have hplen : p < (pyRstrip (cs.take q)).length := List.mem_range.mp hp
        have hkwcs : kwMatchAt cs p = true := by
          rw [hw]
          exact kwMatchAt_append _ w p h2
        have hflecs : firstLineEnd cs = firstLineEnd (pyRstrip (cs.take q)) := by
          conv_lhs => rw [hw]
          rw [firstLineEnd_append, if_pos (by omega)]
        have hcslen : p < cs.length := by
          rw [hw, List.length_append]
          omega
        have hflep : firstLineEnd cs < p := by
          rw [hflecs]
          omega
        have := hmin p hcslen (by simp [hkwcs, hflep])
        omega
      rw [hres]
      simp [remove_after_references, hnil]

/-- C8 counterexample: applying the heading normalizer twice is not a
no-op: on `"==T\n==a==\n=="` the first pass yields `"==T\na\n=="`, in
which the second pass finds a fresh (line-break-spanning) match. -/
theorem claim8_counterexample :
    normalize_wikisection_headings
        (normalize_wikisection_headings ("==T\n==a==\n==".data))
      ≠ normalize_wikisection_headings ("==T\n==a==\n==".data) := by
  decide

/-! ## The heading normalizer on line-break-free text -/

theorem subScanF_nil (fuel : Nat) (b : Bool) : subScanF fuel [] b = [] := by
  cases fuel <;> rfl

theorem subScanF_no_anchor (fuel : Nat) :
    ∀ s : List Char, '\n' ∉ s → subScanF fuel s false = s := by
  induction fuel with
  | zero => intro s _; rfl
  | succ n ih =>
      intro s hs
      cases s with
      | nil => rfl
      | cons c rest =>
          rw [List.mem_cons, not_or] at hs
          obtain ⟨h1, h2⟩ := hs
          have hc : (c == '\n') = false :=
            beq_eq_false_iff_ne.mpr (fun he => h1 he.symm)
          simp only [subScanF, if_neg Bool.false_ne_true, hc, ih rest h2]

theorem takeWhile_dropWhile_length (p : Char → Bool) (l : List Char) :
    (l.takeWhile p).length + (l.dropWhile p).length = l.length := by
  conv_rhs => rw [← List.takeWhile_append_dropWhile p l]
  rw [List.length_append]

theorem takeWhile_length_eq_iff_all {p : Char → Bool} {l : List Char} :
    (l.takeWhile p).length = l.length ↔ l.all p = true := by
  constructor
  · intro h
    have heq : l.takeWhile p = l := (List.takeWhile_sublist p).eq_of_length h
    exact List.all_eq_true.mpr (List.takeWhile_eq_self_iff.mp heq)
  · intro h
    rw [List.takeWhile_eq_self_iff.mpr (List.all_eq_true.mp h)]

theorem lastIdxOf_eq_none (c : Char) (l : List Char) (h : c ∉ l) :
    lastIdxOf c l = none := by
  induction l with
  | nil => rfl
  | cons d rest ih =>
      rw [List.mem_cons, not_or] at h
      obtain ⟨h1, h2⟩ := h
      have hd : (d == c) = false := beq_eq_false_iff_ne.mpr (fun he => h1 he.symm)
      simp [lastIdxOf, ih h2, hd]

/-- On text with no `'\n'`, an anchored match of the heading pattern is
exactly a whole-line match consuming all of the text. -/
theorem headingMatch_no_newline (s : List Char) (hs : '\n' ∉ s) :
    headingMatch s = (lineHeadingInner s).map (fun g => (s.length, g)) := by
  simp only [headingMatch, lineHeadingInner]
  by_cases h1 : ((s.dropWhile isPySpace).takeWhile isEqCh).length < 2
  · simp [h1]
  · simp only [if_neg h1]
    by_cases h2 :
        (((s.dropWhile isPySpace).dropWhile isEqCh).takeWhile (fun c => ! isEqCh c)).length = 0
    · simp [h2]
    · simp only [if_neg h2]
      by_cases h3 :
          ((((s.dropWhile isPySpace).dropWhile isEqCh).dropWhile
              (fun c => ! isEqCh c)).takeWhile isEqCh).length < 2
      · simp [h3]
      · simp only [if_neg h3]
        have hsub : ((((s.dropWhile isPySpace).dropWhile isEqCh).dropWhile
            (fun c => ! isEqCh c)).dropWhile isEqCh).Sublist s :=
          (((List.dropWhile_sublist _).trans (List.dropWhile_sublist _)).trans
            (List.dropWhile_sublist _)).trans (List.dropWhile_sublist _)
        have hnl : '\n' ∉ (((s.dropWhile isPySpace).dropWhile isEqCh).dropWhile
            (fun c => ! isEqCh c)).dropWhile isEqCh :=
          fun hmem => hs (hsub.subset hmem)
        by_cases h4 : (((((s.dropWhile isPySpace).dropWhile isEqCh).dropWhile
              (fun c => ! isEqCh c)).dropWhile isEqCh).takeWhile isPySpace).length
            = ((((s.dropWhile isPySpace).dropWhile isEqCh).dropWhile
              (fun c => ! isEqCh c)).dropWhile isEqCh).length
        · rw [if_pos h4, if_pos (takeWhile_length_eq_iff_all.mp h4)]
          have hlen : (s.takeWhile isPySpace).length
                + ((s.dropWhile isPySpace).takeWhile isEqCh).length
                + (((s.dropWhile isPySpace).dropWhile isEqCh).takeWhile
                    (fun c => ! isEqCh c)).length
                + ((((s.dropWhile isPySpace).dropWhile isEqCh).dropWhile
                    (fun c => ! isEqCh c)).takeWhile isEqCh).length
                + ((((s.dropWhile isPySpace).dropWhile isEqCh).dropWhile
                    (fun c => ! isEqCh c)).dropWhile isEqCh).length
              = s.length := by
            have e1 := takeWhile_dropWhile_length isPySpace s
            have e2 := takeWhile_dropWhile_length isEqCh (s.dropWhile isPySpace)
            have e3 := takeWhile_dropWhile_length (fun c => ! isEqCh c)
              ((s.dropWhile isPySpace).dropWhile isEqCh)
            have e4 := takeWhile_dropWhile_length isEqCh
              (((s.dropWhile isPySpace).dropWhile isEqCh).dropWhile (fun c => ! isEqCh c))
            omega
          rw [← h4] at hlen
          simp only [Option.map_some']
          rw [hlen]
        · rw [if_neg h4, if_neg (fun hall => h4 (takeWhile_length_eq_iff_all.mpr hall))]
          have hnltw : '\n' ∉ ((((s.dropWhile isPySpace).dropWhile isEqCh).dropWhile
              (fun c => ! isEqCh c)).dropWhile isEqCh).takeWhile isPySpace :=
            fun hmem => hnl ((List.takeWhile_sublist _).subset hmem)
          rw [lastIdxOf_eq_none '\n' _ hnltw]
          rfl

theorem splitOnNL_no_newline (l : List Char) (h : '\n' ∉ l) : splitOnNL l = [l] := by
  induction l with
  | nil => rfl
  | cons c rest ih =>
      rw [List.mem_cons, not_or] at h
      obtain ⟨h1, h2⟩ := h
      have hc : (c == '\n') = false := beq_eq_false_iff_ne.mpr (fun he => h1 he.symm)
      simp [splitOnNL, hc, ih h2]

/-- C3 counterexample: the claim's line-based reading predicts that the
blank first line of `"\n==H=="` is left unchanged, but the multiline
pattern's leading `\s*` absorbs the line break, so the source function
returns `"H"` while the line-based transformation returns `"\nH"`. -/
theorem claim3_counterexample :
    normalize_wikisection_headings ("\n==H==".data) = "H".data ∧
    normalize_headings_linewise ("\n==H==".data) = "\nH".data ∧
    ("H".data : List Char) ≠ "\nH".data :=
  ⟨by decide, by decide, by decide⟩

/-- C3 (amended): on text containing no line break,
`normalize_wikisection_headings` is exactly the claimed line-based
rewriting: a sole line of the form optional whitespace, two-or-more
`'='`, `'='`-free heading text, two-or-more `'='`, optional whitespace
is replaced by the trimmed heading text and any other sole line is
unchanged.  (On multi-line text a match may additionally absorb
adjacent whitespace, including line breaks, and heading text may span
lines: see the counterexample.) -/
theorem claim3_heading_normalizer (l : List Char) (h : '\n' ∉ l) :
    normalize_wikisection_headings l = normalize_headings_linewise l := by
  rw [normalize_headings_linewise, splitOnNL_no_newline l h]
  cases l with
  | nil => rfl
  | cons c rest =>
      have hrest : '\n' ∉ rest := fun hm => h (List.mem_cons_of_mem c hm)
      have hcnl : (c == '\n') = false := by
        apply beq_eq_false_iff_ne.mpr
        intro he
        exact h (he ▸ List.mem_cons_self c rest)
      cases hm : lineHeadingInner (c :: rest) with
      | none =>
          have hm' : headingMatch (c :: rest) = none := by
            rw [headingMatch_no_newline _ h, hm]
            rfl
          simp only [List.map_cons, List.map_nil, hm]
          show normalize_wikisection_headings (c :: rest) = c :: rest
          rw [normalize_wikisection_headings]
          simp only [List.length_cons, subScanF, if_true, hm', hcnl]
          rw [subScanF_no_anchor rest.length rest hrest]
      | some g =>
          have hm' : headingMatch (c :: rest) = some ((c :: rest).length, g) := by
            rw [headingMatch_no_newline _ h, hm]
            rfl
          simp only [List.map_cons, List.map_nil, hm]
          show normalize_wikisection_headings (c :: rest) = pyStrip g
          rw [normalize_wikisection_headings]
          simp only [List.length_cons, subScanF, if_true, hm']
          rw [Nat.add_sub_cancel, List.drop_length, subScanF_nil, List.append_nil]

theorem claim3_witness :
    normalize_wikisection_headings ("  ==Heading==  ".data) = "Heading".data := by
  rw [claim3_heading_normalizer ("  ==Heading==  ".data) (by decide)]
  decide

/-! ## Word counts: a whitespace separator splits the token list -/

theorem pySplitAux_append_space (c : Char) (hc : isPySpace c = true) (b : List Char) :
    ∀ (a acc : List Char),
      pySplitAux (a ++ c :: b) acc = pySplitAux a acc ++ pySplitAux b [] := by
  intro a
  induction a with
  | nil =>
      intro acc
      rw [List.nil_append]
      simp only [pySplitAux, hc, if_true]
  | cons d a' ih =>
      intro acc
      rw [List.cons_append]
      by_cases hd : isPySpace d = true
      · simp only [pySplitAux, hd, if_true, ih []]
        rw [List.append_assoc]
      · simp only [pySplitAux, hd, if_false]
        exact ih (d :: acc)

theorem count_words_append_space (c : Char) (hc : isPySpace c = true)
    (a b : List Char) : count_words (a ++ c :: b) = count_words a + count_words b := by
  rw [count_words, count_words, count_words, pySplit, pySplit, pySplit,
      pySplitAux_append_space c hc b a [], List.length_append]

theorem isLineBreak_isPySpace (c : Char) (h : isLineBreakChar c = true) :
    isPySpace c = true := by
  rw [isLineBreakChar] at h
  simp only [Bool.or_eq_true, beq_iff_eq] at h
  rcases h with ((((((((h | h) | h) | h) | h) | h) | h) | h) | h) | h <;> subst h <;> decide

theorem count_words_nil : count_words ([] : List Char) = 0 := rfl

theorem count_words_nl_cons (rest : List Char) :
    count_words ('\n' :: rest) = count_words rest := by
  have h := count_words_append_space '\n' (by decide) [] rest
  rw [List.nil_append, count_words_nil] at h
  omega

set_option maxHeartbeats 1000000 in
theorem sum_count_splitlinesAux :
    ∀ (s acc : List Char),
      ((splitlinesAux s acc).map count_words).sum = count_words (acc.reverse ++ s) := by
  intro s acc
  induction s, acc using splitlinesAux.induct with
  | case1 acc hacc =>
      have ha : acc = [] := by simpa using hacc
      subst ha
      rfl
  | case2 acc hacc =>
      rw [splitlinesAux.eq_1, if_neg hacc, List.map_cons, List.map_nil, List.sum_cons,
          List.sum_nil, List.append_nil]
      omega
  | case3 rest acc ih =>
      simp only [List.reverse_nil, List.nil_append] at ih
      have hred : splitlinesAux ('\r' :: '\n' :: rest) acc
          = acc.reverse :: splitlinesAux rest [] := rfl
      rw [hred, List.map_cons, List.sum_cons, ih,
          count_words_append_space '\r' (by decide) acc.reverse ('\n' :: rest),
          count_words_nl_cons]
  | case4 c rest acc hshape hbr ih =>
      simp only [List.reverse_nil, List.nil_append] at ih
      have hred : splitlinesAux (c :: rest) acc
          = acc.reverse :: splitlinesAux rest [] := by
        rw [splitlinesAux.eq_3 acc c rest hshape, if_pos hbr]
      rw [hred, List.map_cons, List.sum_cons, ih,
          count_words_append_space c (isLineBreak_isPySpace c hbr) acc.reverse rest]
  | case5 c rest acc hshape hbr ih =>
      have hred : splitlinesAux (c :: rest) acc = splitlinesAux rest (c :: acc) := by
        rw [splitlinesAux.eq_3 acc c rest hshape, if_neg hbr]
      rw [hred, ih, List.reverse_cons, List.append_assoc]
      rfl

theorem count_words_splitlines (s : List Char) :
    ((splitlines s).map count_words).sum = count_words s := by
  have h := sum_count_splitlinesAux s []
  rw [List.reverse_nil, List.nil_append] at h
  exact h

/-- The extraction result is (when nonempty) the pending buffer followed
by a selection of the remaining lines, each with its line break; the
selected lines form a sublist of the input lines. -/
theorem leadParagraphSpec_structure :
    ∀ (lines : List (List Char)) (buffer : List Char) (count : Nat),
      ∃ sel : List (List Char), sel.Sublist lines ∧
        (leadParagraphSpec lines buffer count = [] ∨
         leadParagraphSpec lines buffer count
           = buffer ++ (sel.map (fun l => l ++ ['\n'])).flatten) := by
  intro lines
  induction lines with
  | nil =>
      intro buffer count
      exact ⟨[], List.nil_sublist _, Or.inl rfl⟩
  | cons line rest ih =>
      intro buffer count
      by_cases hp : ((pyStrip line).getLast? == some '.') = true
      · obtain ⟨sel', hsub, hcase⟩ := ih [] 0
        rcases hcase with he | he
        · refine ⟨[line], List.Sublist.cons₂ line (List.nil_sublist rest), Or.inr ?_⟩
          simp [leadParagraphSpec, hp, he, List.flatten_cons, List.append_assoc]
        · refine ⟨line :: sel', List.Sublist.cons₂ line hsub, Or.inr ?_⟩
          simp [leadParagraphSpec, hp, he, List.flatten_cons, List.append_assoc]
      · by_cases hb : (pyStrip line).isEmpty = true
        · obtain ⟨sel', hsub, hcase⟩ := ih (buffer ++ (line ++ ['\n'])) count
          rcases hcase with he | he
          · refine ⟨[], List.nil_sublist _, Or.inl ?_⟩
            simp [leadParagraphSpec, hp, hb, he]
          · refine ⟨line :: sel', List.Sublist.cons₂ line hsub, Or.inr ?_⟩
            simp [leadParagraphSpec, hp, hb, he, List.flatten_cons, List.append_assoc]
        · by_cases hs : count + 1 ≥ 2
          · refine ⟨[], List.nil_sublist _, Or.inl ?_⟩
            simp [leadParagraphSpec, hp, hb, hs]
          · obtain ⟨sel', hsub, hcase⟩ := ih (buffer ++ (line ++ ['\n'])) (count + 1)
            rcases hcase with he | he
            · refine ⟨[], List.nil_sublist _, Or.inl ?_⟩
              simp [leadParagraphSpec, hp, hb, hs, he]
            · refine ⟨line :: sel', List.Sublist.cons₂ line hsub, Or.inr ?_⟩
              simp [leadParagraphSpec, hp, hb, hs, he, List.flatten_cons,
                List.append_assoc]

theorem count_words_flatten_lines (sel : List (List Char)) :
    count_words ((sel.map (fun l => l ++ ['\n'])).flatten) = (sel.map count_words).sum := by
  induction sel with
  | nil => rfl
  | cons l rest ih =>
      rw [List.map_cons, List.flatten_cons, List.map_cons, List.sum_cons, ← ih]
      have hshape : l ++ ['\n'] ++ (rest.map (fun l => l ++ ['\n'])).flatten
          = l ++ '\n' :: (rest.map (fun l => l ++ ['\n'])).flatten := by
        rw [List.append_assoc]
        rfl
      rw [hshape, count_words_append_space '\n' (by decide)]

theorem count_words_append_newlines (y : List Char) (k : Nat) :
    count_words (y ++ List.replicate k '\n') = count_words y := by
  induction k generalizing y with
  | zero => rw [List.replicate_zero, List.append_nil]
  | succ n ih =>
      rw [List.replicate_succ,
          count_words_append_space '\n' (by decide) y (List.replicate n '\n')]
      have h0 : count_words (List.replicate n '\n') = 0 := by
        have := ih ([] : List Char)
        rw [List.nil_append, count_words_nil] at this
        exact this
      omega

theorem count_words_rstripNewlines (x : List Char) :
    count_words (rstripNewlines x) = count_words x := by
  obtain ⟨t, ht, hall⟩ := reverse_dropWhile_decomp (fun c => c == '\n') x
  have ht' : x = rstripNewlines x ++ t := ht
  have hrep : t = List.replicate t.length '\n' :=
    List.eq_replicate_of_mem (fun b hb => by simpa using hall b hb)
  conv_rhs => rw [ht', hrep]
  rw [count_words_append_newlines]

theorem count_words_extract_le (s : List Char) :
    count_words (extract_until_two_non_period_lines s) ≤ count_words s := by
  rw [extract_eq_leadParagraphExtract, leadParagraphExtract, count_words_rstripNewlines]
  obtain ⟨sel, hsub, hcase⟩ := leadParagraphSpec_structure (splitlines s) [] 0
  rcases hcase with he | he
  · rw [he, count_words_nil]
    exact Nat.zero_le _
  · rw [he, List.nil_append, count_words_flatten_lines]
    calc (sel.map count_words).sum
        ≤ ((splitlines s).map count_words).sum :=
          (List.Sublist.map count_words hsub).sum_le_sum (fun a _ => Nat.zero_le a)
      _ = count_words s := count_words_splitlines s

/-- C9: the whitespace-delimited word count of the extracted lead
paragraph never exceeds that of the input (the extraction emits a
selection of the input's lines, each at most once); consequently in
every record `custom_adapter` produces,
`extracted_text_word_count <= text_word_count`. -/
theorem claim9_extracted_word_count_le :
    (∀ s, count_words (extract_until_two_non_period_lines s) ≤ count_words s) ∧
    (∀ t r, custom_adapter t = some r →
       r.extracted_text_word_count ≤ r.text_word_count) := by
  refine ⟨count_words_extract_le, ?_⟩
  intro t r h
  rw [custom_adapter] at h
  cases hs : splitlines (remove_after_references (normalize_wikisection_headings t)) with
  | nil =>
      rw [hs] at h
      exact absurd h (by simp)
  | cons l0 rest =>
      rw [hs] at h
      simp only [Option.some_inj] at h
      rw [← h]
      exact count_words_extract_le _

theorem claim9_witness :
    (⟨"T".data, "A b.".data, 2, 4, 2, false, false⟩ : OutputRecord).extracted_text_word_count
      ≤ (⟨"T".data, "A b.".data, 2, 4, 2, false, false⟩ : OutputRecord).text_word_count :=
  claim9_extracted_word_count_le.2 ("T\nA b.".data) _ (by decide)

/-! ## Year detection is preserved from the extraction back to the input -/

theorem not_hasYear_nil : ¬ hasYear ([] : List Char) := by
  rintro ⟨a, d, b, hcs, _, hL, _, _⟩
  have h0 : a.length + d.length + b.length = 0 := by
    have := congrArg List.length hcs
    simp [List.length_append] at this
    omega
  omega

/-- A year run inside `y` is a year run inside `p ++ y ++ q` whenever
`p` is empty or ends in a non-digit and `q` is empty or starts with a
non-digit. -/
theorem hasYear_infix (p y q : List Char)
    (hp : p = [] ∨ ∃ p' c, p = p' ++ [c] ∧ c.isDigit = false)
    (hq : q = [] ∨ ∃ c q', q = c :: q' ∧ c.isDigit = false)
    (h : hasYear y) : hasYear (p ++ y ++ q) := by
  obtain ⟨a, d, b, hcs, hdig, hL, hA, hB⟩ := h
  refine ⟨p ++ a, d, b ++ q, ?_, hdig, hL, ?_, ?_⟩
  · rw [hcs]
    simp [List.append_assoc]
  · rcases hA with rfl | ⟨a', c, rfl, hc⟩
    · rcases hp with rfl | ⟨p', c, rfl, hc⟩
      · left
        rfl
      · right
        exact ⟨p', c, by rw [List.append_nil], hc⟩
    · right
      exact ⟨p ++ a', c, by rw [List.append_assoc], hc⟩
  · rcases hB with rfl | ⟨c, b', rfl, hc⟩
    · rcases hq with rfl | ⟨c, q', rfl, hc⟩
      · left
        rfl
      · right
        exact ⟨c, q', by rw [List.nil_append], hc⟩
    · right
      exact ⟨c, b' ++ q, by rw [List.cons_append], hc⟩

theorem isLineBreak_not_digit (c : Char) (h : isLineBreakChar c = true) :
    c.isDigit = false := by
  rw [isLineBreakChar] at h
  simp only [Bool.or_eq_true, beq_iff_eq] at h
  rcases h with ((((((((h | h) | h) | h) | h) | h) | h) | h) | h) | h <;> subst h <;> decide

/-- A digit run cannot contain the separator `'\n'`, so a year match in
`a ++ '\n' :: b` lies entirely inside `a` or inside `b`. -/
theorem hasYear_split_nl (a b : List Char) (h : hasYear (a ++ '\n' :: b)) :
    hasYear a ∨ hasYear b := by
  obtain ⟨α, d, β, hcs, hdig, hL, hA, hB⟩ := h
  have hdnl : '\n' ∉ d := by
    intro hm
    have h1 := List.all_eq_true.mp hdig '\n' hm
    exact absurd h1 (by decide)
  have hdne : d ≠ [] := by
    intro h0
    rw [h0] at hL
    rcases hL with h1 | h1 <;> exact absurd h1 (by decide)
  have hcs' : α ++ (d ++ β) = a ++ '\n' :: b := by
    rw [← List.append_assoc]
    exact hcs.symm
  rcases List.append_eq_append_iff.mp hcs' with ⟨w, hw1, hw2⟩ | ⟨w, hw1, hw2⟩
  · rcases List.append_eq_append_iff.mp hw2 with ⟨u, hu1, hu2⟩ | ⟨u, hu1, hu2⟩
    · left
      refine ⟨α, d, u, ?_, hdig, hL, hA, ?_⟩
      · rw [hw1, hu1, List.append_assoc]
      · cases u with
        | nil => exact Or.inl rfl
        | cons c₀ u' =>
            rcases hB with hB0 | ⟨c, β', hb, hc⟩
            · rw [hB0] at hu2
              exact absurd hu2.symm (List.cons_ne_nil _ _)
            · have hcc : c = c₀ := by
                rw [hb, List.cons_append] at hu2
                injection hu2 with h1 _
              exact Or.inr ⟨c₀, u', rfl, hcc ▸ hc⟩
    · cases u with
      | nil =>
          left
          rw [List.append_nil] at hu1
          refine ⟨α, d, [], ?_, hdig, hL, hA, Or.inl rfl⟩
          rw [List.append_nil, hw1, hu1]
      | cons c₀ u' =>
          exfalso
          apply hdnl
          have hc₀ : c₀ = '\n' := by
            rw [List.cons_append] at hu2
            injection hu2 with h1 _
            exact h1.symm
          rw [hu1, hc₀]
          exact List.mem_append_right w (List.mem_cons_self '\n' u')
  · cases w with
    | nil =>
        exfalso
        rw [List.nil_append] at hw2
        cases d with
        | nil => exact hdne rfl
        | cons d₀ d' =>
            rw [List.cons_append] at hw2
            injection hw2 with h1 _
            have hmem : '\n' ∈ d₀ :: d' := by
              rw [h1]
              exact List.mem_cons_self d₀ d'
            exact hdnl hmem
    | cons c₀ w' =>
        right
        rw [List.cons_append] at hw2
        injection hw2 with _ h2
        refine ⟨w', d, β, ?_, hdig, hL, ?_, hB⟩
        · rw [h2, List.append_assoc]
        · rcases List.eq_nil_or_concat w' with rfl | ⟨w'', e, hw'⟩
          · exact Or.inl rfl
          · right
            rw [List.concat_eq_append] at hw'
            rcases hA with hA0 | ⟨α', c, ha, hc⟩
            · exfalso
              rw [hA0] at hw1
              have := congrArg List.length hw1
              simp [List.length_append] at this
              omega
            · refine ⟨w'', e, hw', ?_⟩
              have hce : c = e := by
                have hg1 : α.getLast? = some c := by
                  rw [ha]
                  exact List.getLast?_concat α'
                have hg2 : α.getLast? = some e := by
                  rw [hw1, hw']
                  rw [show a ++ c₀ :: (w'' ++ [e]) = (a ++ c₀ :: w'') ++ [e] by
                    simp [List.append_assoc]]
                  exact List.getLast?_concat _
                rw [hg1] at hg2
                injection hg2
              rw [← hce]
              exact hc

theorem hasYear_flatten (sel : List (List Char))
    (h : hasYear ((sel.map (fun l => l ++ ['\n'])).flatten)) :
    ∃ l ∈ sel, hasYear l := by
  induction sel with
  | nil => exact absurd h not_hasYear_nil
  | cons l rest ih =>
      rw [List.map_cons, List.flatten_cons, List.append_assoc,
          List.singleton_append] at h
      rcases hasYear_split_nl l _ h with h1 | h1
      · exact ⟨l, List.mem_cons_self l rest, h1⟩
      · obtain ⟨l', hm, hy⟩ := ih h1
        exact ⟨l', List.mem_cons_of_mem l hm, hy⟩

/-- Every line produced by `splitlines` sits in the original text flanked
by line-break characters (or the ends of the text). -/
theorem splitlinesAux_flanked :
    ∀ (s acc l : List Char), l ∈ splitlinesAux s acc →
      (∃ q, acc.reverse ++ s = l ++ q ∧
         (q = [] ∨ ∃ c q', q = c :: q' ∧ isLineBreakChar c = true)) ∨
      (∃ p q, s = p ++ l ++ q ∧
         (∃ p' c, p = p' ++ [c] ∧ isLineBreakChar c = true) ∧
         (q = [] ∨ ∃ c q', q = c :: q' ∧ isLineBreakChar c = true)) := by
  intro s acc
  induction s, acc using splitlinesAux.induct with
  | case1 acc hacc =>
      intro l hl
      rw [splitlinesAux.eq_1, if_pos hacc] at hl
      exact absurd hl (List.not_mem_nil l)
  | case2 acc hacc =>
      intro l hl
      rw [splitlinesAux.eq_1, if_neg hacc] at hl
      rcases List.mem_cons.mp hl with rfl | hl'
      · exact Or.inl ⟨[], by simp, Or.inl rfl⟩
      · exact absurd hl' (List.not_mem_nil l)
  | case3 rest acc ih =>
      intro l hl
      have hred : splitlinesAux ('\r' :: '\n' :: rest) acc
          = acc.reverse :: splitlinesAux rest [] := rfl
      rw [hred] at hl
      rcases List.mem_cons.mp hl with rfl | hl'
      · exact Or.inl ⟨'\r' :: '\n' :: rest, rfl, Or.inr ⟨'\r', '\n' :: rest, rfl, by decide⟩⟩
      · rcases ih l hl' with ⟨q, hq, hqf⟩ | ⟨p, q, hpq, hpf, hqf⟩
        · rw [List.reverse_nil, List.nil_append] at hq
          refine Or.inr ⟨['\r', '\n'], q, ?_, ⟨['\r'], '\n', rfl, by decide⟩, hqf⟩
          rw [hq]
          rfl
        · obtain ⟨p', c, hp', hc⟩ := hpf
          refine Or.inr ⟨'\r' :: '\n' :: p, q, ?_, ⟨'\r' :: '\n' :: p', c, ?_, hc⟩, hqf⟩
        
          · rw [hpq]
            rfl
          · rw [hp']
            rfl
  | case4 c rest acc hshape hbr ih =>
      intro l hl
      have hred : splitlinesAux (c :: rest) acc
          = acc.reverse :: splitlinesAux rest [] := by
        rw [splitlinesAux.eq_3 acc c rest hshape, if_pos hbr]
      rw [hred] at hl
      rcases List.mem_cons.mp hl with rfl | hl'
      · exact Or.inl ⟨c :: rest, rfl, Or.inr ⟨c, rest, rfl, hbr⟩⟩
      · rcases ih l hl' with ⟨q, hq, hqf⟩ | ⟨p, q, hpq, hpf, hqf⟩
        · rw [List.reverse_nil, List.nil_append] at hq
          refine Or.inr ⟨[c], q, ?_, ⟨[], c, rfl, hbr⟩, hqf⟩
          rw [hq]
          rfl
        · obtain ⟨p', c', hp', hc'⟩ := hpf
          refine Or.inr ⟨c :: p, q, ?_, ⟨c :: p', c', ?_, hc'⟩, hqf⟩
          · rw [hpq]
            rfl
          · rw [hp']
            rfl
  | case5 c rest acc hshape hbr ih =>
      intro l hl
      have hred : splitlinesAux (c :: rest) acc = splitlinesAux rest (c :: acc) := by
        rw [splitlinesAux.eq_3 acc c rest hshape, if_neg hbr]
      rw [hred] at hl
      rcases ih l hl with ⟨q, hq, hqf⟩ | ⟨p, q, hpq, hpf, hqf⟩
      · left
        refine ⟨q, ?_, hqf⟩
        rw [List.reverse_cons, List.append_assoc] at hq
        rw [← hq]
        rfl
      · obtain ⟨p', c', hp', hc'⟩ := hpf
        refine Or.inr ⟨c :: p, q, ?_, ⟨c :: p', c', ?_, hc'⟩, hqf⟩
        · rw [hpq]
          rfl
        · rw [hp']
          rfl

theorem splitlines_flanked (s l : List Char) (hl : l ∈ splitlines s) :
    ∃ p q, s = p ++ l ++ q ∧
      (p = [] ∨ ∃ p' c, p = p' ++ [c] ∧ isLineBreakChar c = true) ∧
      (q = [] ∨ ∃ c q', q = c :: q' ∧ isLineBreakChar c = true) := by
  rcases splitlinesAux_flanked s [] l hl with ⟨q, hq, hqf⟩ | ⟨p, q, hpq, hpf, hqf⟩
  · refine ⟨[], q, ?_, Or.inl rfl, hqf⟩
    rw [List.reverse_nil, List.nil_append] at hq
    rw [List.nil_append]
    exact hq
  · exact ⟨p, q, hpq, Or.inr hpf, hqf⟩

theorem hasYear_line (s l : List Char) (hl : l ∈ splitlines s) (h : hasYear l) :
    hasYear s := by
  obtain ⟨p, q, hs, hpf, hqf⟩ := splitlines_flanked s l hl
  rw [hs]
  apply hasYear_infix p l q ?_ ?_ h
  · rcases hpf with rfl | ⟨p', c, hp', hc⟩
    · exact Or.inl rfl
    · exact Or.inr ⟨p', c, hp', isLineBreak_not_digit c hc⟩
  · rcases hqf with rfl | ⟨c, q', hq', hc⟩
    · exact Or.inl rfl
    · exact Or.inr ⟨c, q', hq', isLineBreak_not_digit c hc⟩

theorem year_extract_implies (s : List Char)
    (h : contains_western_year (extract_until_two_non_period_lines s) = true) :
    contains_western_year s = true := by
  have hy : hasYear (extract_until_two_non_period_lines s) :=
    (contains_western_year_iff _).mp h
  rw [extract_eq_leadParagraphExtract, leadParagraphExtract] at hy
  obtain ⟨t, ht, hall⟩ := reverse_dropWhile_decomp (fun c => c == '\n')
    (leadParagraphSpec (splitlines s) [] 0)
  have ht' : leadParagraphSpec (splitlines s) [] 0
      = rstripNewlines (leadParagraphSpec (splitlines s) [] 0) ++ t := ht
  have htf : t = [] ∨ ∃ c t', t = c :: t' ∧ c.isDigit = false := by
    cases t with
    | nil => exact Or.inl rfl
    | cons c t' =>
        right
        have hmem := hall c (List.mem_cons_self c t')
        have hc : c = '\n' := by simpa using hmem
        exact ⟨c, t', rfl, by rw [hc]; decide⟩
  have hyR : hasYear (leadParagraphSpec (splitlines s) [] 0) := by
    rw [ht']
    have hinf := hasYear_infix []
      (rstripNewlines (leadParagraphSpec (splitlines s) [] 0)) t (Or.inl rfl) htf hy
    rw [List.nil_append] at hinf
    exact hinf
  obtain ⟨sel, hsub, hcase⟩ := leadParagraphSpec_structure (splitlines s) [] 0
  rcases hcase with he | he
  · rw [he] at hyR
    exact absurd hyR not_hasYear_nil
  · rw [he, List.nil_append] at hyR
    obtain ⟨l, hlmem, hly⟩ := hasYear_flatten sel hyR
    exact (contains_western_year_iff s).mpr (hasYear_line s l (hsub.subset hlmem) hly)

/-- C10: if the year detector fires on the extracted lead paragraph it
fires on the input text (every detected digit run lies within a line
copied verbatim from the input with non-digit neighbourhood), so in
every record `custom_adapter` produces,
`extracted_contains_western_year` implies `contains_western_year`. -/
theorem claim10_year_monotone :
    (∀ s, contains_western_year (extract_until_two_non_period_lines s) = true →
       contains_western_year s = true) ∧
    (∀ t r, custom_adapter t = some r →
       r.extracted_contains_western_year = true → r.contains_western_year = true) := by
  refine ⟨year_extract_implies, ?_⟩
  intro t r h
  rw [custom_adapter] at h
  cases hs : splitlines (remove_after_references (normalize_wikisection_headings t)) with
  | nil =>
      rw [hs] at h
      exact absurd h (by simp)
  | cons l0 rest =>
      rw [hs] at h
      simp only [Option.some_inj] at h
      rw [← h]
      exact year_extract_implies _

theorem claim10_witness :
    contains_western_year
        (extract_until_two_non_period_lines ("Year 1990 came.".data)) = true ∧
    contains_western_year ("Year 1990 came.".data) = true :=
  ⟨by decide, claim10_year_monotone.1 ("Year 1990 came.".data) (by decide)⟩
